import Mathlib

/-!
Verification of the round-resolution core of `space_werewolf_5p_deepseek.py`.

The embedding models the game's state machine: role assignment
(`SpaceWerewolfGame.__init__`), suspicion scoring
(`AdvancedDeepSeekClient._mock_suspect_analysis`), the voting phase
(`SpaceWerewolfGame.run_voting_phase`), victory evaluation
(`SpaceWerewolfGame.check_victory`) and the forced decision at the
two-round cap (`SpaceWerewolfGame.run`).

Randomness is embedded explicitly: every call to `random.random()` becomes
a rational parameter drawn from `[0, 1)`, and every call to
`random.choice(l)` (which returns the element at a uniformly drawn valid
index) becomes `pickNat l i` for an index parameter `i`; theorems quantify
over all such draws, so they cover in particular the uniformly drawn ones.
Python floats are modelled as rationals, and Python's `round(x, 2)` as
rounding `100 * x` to the nearest integer.
-/

namespace SpaceWerewolf

/-- The fixed player ids 1..5 (`GameConfig.TOTAL_PLAYERS = 5`,
`self.player_ids = list(range(1, 6))`). -/
def playerIds : List ℕ := [1, 2, 3, 4, 5]

/-- The nine thematic role labels of the source: five Crewmate labels and
four Impostor labels. -/
inductive Role where
  | kai
  | lina
  | ella
  | mark
  | lucy
  | vic
  | zoe
  | jack
  | lily
deriving DecidableEq, Repr

/-- The five-label Crewmate pool (`self.all_crew_roles`). -/
def allCrewRoles : List Role := [Role.kai, Role.lina, Role.ella, Role.mark, Role.lucy]

/-- The four-label Impostor pool (`self.all_imposter_roles`). -/
def allImposterRoles : List Role := [Role.vic, Role.zoe, Role.jack, Role.lily]

/-- Result of a victory evaluation: the two terminal messages of
`check_victory` (with `True`), or game-continues (`"", False`). -/
inductive Victory where
  | impostorsWin
  | crewmatesWin
  | gameOn
deriving DecidableEq, Repr

/-- Number of members of a faction that are not yet eliminated
(`len([pid for pid in faction if pid not in self.eliminated_players])`). -/
def activeCount (faction : List ℕ) (elim : Finset ℕ) : ℕ :=
  (faction.filter (fun p => decide (p ∉ elim))).length

/-- Embedding of `SpaceWerewolfGame.check_victory`: Impostors win when
`len(active_imposters) >= len(active_crewmates)` or no Crewmate is left;
otherwise Crewmates win when no Impostor is left; otherwise the game goes on. -/
def check_victory (imposterIds crewmateIds : List ℕ) (elim : Finset ℕ) : Victory :=
  if activeCount crewmateIds elim ≤ activeCount imposterIds elim ∨
      activeCount crewmateIds elim = 0 then
    Victory.impostorsWin
  else if activeCount imposterIds elim = 0 then
    Victory.crewmatesWin
  else
    Victory.gameOn

/-- Embedding of the forced judgment after the two voting rounds
(`SpaceWerewolfGame.run`, the `if not game_ended` block): Crewmates win when
no Impostor is active, else Impostors win when they are at least as many as
the active Crewmates, else Crewmates win by default majority. -/
def forcedDecision (imposterIds crewmateIds : List ℕ) (elim : Finset ℕ) : Victory :=
  if activeCount imposterIds elim = 0 then
    Victory.crewmatesWin
  else if activeCount crewmateIds elim ≤ activeCount imposterIds elim then
    Victory.impostorsWin
  else
    Victory.crewmatesWin

/-- Model of `random.choice l`: the element at a (uniformly drawn) index.
Indexing is wrapped modulo the length so the function is total; for indices
below the length it is exactly `l[i]`. -/
def pickNat (l : List ℕ) (i : ℕ) : ℕ :=
  l.getD (i % l.length) 0

/-- The ids that are not yet eliminated, in the order of the stored
(shuffled) player id list (`SpaceWerewolfGame.get_active_players`). -/
def activeOf (ids : List ℕ) (elim : Finset ℕ) : List ℕ :=
  ids.filter (fun p => decide (p ∉ elim))

/-- Python's `round(q, 2)` on the rational model: round `100 * q` to the
nearest integer and divide back. Exact half values round upward here while
Python rounds half to even; no claim depends on the tie direction, only on
the result being an exact multiple of `1/100` in the claimed range. -/
def round2 (q : ℚ) : ℚ :=
  ((round (q * 100) : ℤ) : ℚ) / 100

/-- The unit-interval draws consumed for one player's score in
`_mock_suspect_analysis`: the base draw, the adjustment coin and the
adjustment-amount draw. -/
structure ScoreRand where
  base : ℚ
  adjCoin : ℚ
  adj : ℚ
deriving DecidableEq

/-- Per-player raw score of `_mock_suspect_analysis` before rounding:
Impostors get `0.35 + random() * 0.3`, reduced by `0.05 + random() * 0.05`
when a fair coin is below `0.5`; Crewmates get `0.25 + random() * 0.35`,
increased by `0.05 + random() * 0.05` when a coin is below `0.3`. -/
def rawScore (isImposter : Bool) (r : ScoreRand) : ℚ :=
  if isImposter then
    if r.adjCoin < 1 / 2 then
      35 / 100 + r.base * (3 / 10) - (5 / 100 + r.adj * (5 / 100))
    else
      35 / 100 + r.base * (3 / 10)
  else
    if r.adjCoin < 3 / 10 then
      25 / 100 + r.base * (35 / 100) + (5 / 100 + r.adj * (5 / 100))
    else
      25 / 100 + r.base * (35 / 100)

/-- Embedding of `AdvancedDeepSeekClient._mock_suspect_analysis`: a rounded
raw score per listed player id, then with probability `0.2` one random
Crewmate (if any) is boosted by `+0.1` capped at `0.7` and re-rounded. -/
def mockSuspectAnalysis (ids imposterIds : List ℕ) (r : ℕ → ScoreRand)
    (boostCoin : ℚ) (boostIdx : ℕ) : List (ℕ × ℚ) :=
  let scores := ids.map (fun pid => (pid, round2 (rawScore (pid ∈ imposterIds) (r pid))))
  if boostCoin < 2 / 10 then
    let crewIds := ids.filter (fun pid => decide (pid ∉ imposterIds))
    match crewIds with
    | [] => scores
    | _ :: _ =>
      let lucky := pickNat crewIds boostIdx
      scores.map (fun x => if x.1 = lucky then (x.1, round2 (min (7 / 10) (x.2 + 1 / 10))) else x)
  else
    scores

/-- The caller-side fallback of `run_voting_phase`: every active id missing
from the returned score mapping is given the neutral default `0.5`. -/
def fillScores (scores : List (ℕ × ℚ)) (active : List ℕ) : List (ℕ × ℚ) :=
  scores ++ (active.filter (fun pid => (scores.lookup pid).isNone)).map (fun pid => (pid, 1 / 2))

/-- Stable descending insertion by score, auxiliary to `sortDesc`. -/
def insertDesc (x : ℕ × ℚ) : List (ℕ × ℚ) → List (ℕ × ℚ)
  | [] => [x]
  | y :: ys => if y.2 ≤ x.2 then x :: y :: ys else y :: insertDesc x ys

/-- Stable descending sort by score: the model of
`sorted(suspect_scores.items(), key=lambda x: x[1], reverse=True)`. -/
def sortDesc : List (ℕ × ℚ) → List (ℕ × ℚ)
  | [] => []
  | x :: xs => insertDesc x (sortDesc xs)

/-- The id at rank `k` of the descending score ranking
(`sorted_suspect[k][0]`). -/
def rankedId (scores : List (ℕ × ℚ)) (k : ℕ) : ℕ :=
  ((sortDesc scores).getD k (0, 0)).1

/-- GameConfig.RANDOM_VOTE_RATE = 0.05. -/
def RANDOM_VOTE_RATE : ℚ := 5 / 100

/-- One voter's target in `run_voting_phase` (lines computing `votes`):
with a lone active player the voter votes for themselves; with the random
coin below `RANDOM_VOTE_RATE` the voter picks a random other player; an
Impostor votes for the highest-ranked Crewmate other than themselves, or
when none exists for the second-ranked player overall; a Crewmate votes for
the top-ranked player, or for the second-ranked one when they themselves
hold the top rank. -/
def voteOf (sortedSuspect : List (ℕ × ℚ)) (imposterIds crewmateIds activePlayers : List ℕ)
    (voter : ℕ) (coin : ℚ) (ridx : ℕ) : ℕ :=
  let otherPlayers := activePlayers.filter (fun p => decide (p ≠ voter))
  if otherPlayers = [] then voter
  else if coin < RANDOM_VOTE_RATE then pickNat otherPlayers ridx
  else if voter ∈ imposterIds then
    match sortedSuspect.filter (fun x => decide (x.1 ∈ crewmateIds ∧ x.1 ≠ voter)) with
    | c :: _ => c.1
    | [] =>
      if 1 < sortedSuspect.length then (sortedSuspect.getD 1 (0, 0)).1
      else pickNat otherPlayers ridx
  else
    let highestPid := (sortedSuspect.getD 0 (0, 0)).1
    if highestPid ≠ voter then highestPid
    else if 1 < sortedSuspect.length then (sortedSuspect.getD 1 (0, 0)).1
    else pickNat otherPlayers ridx

/-- First-occurrence deduplication, matching the key order of the Python
`vote_tally` dict built over the vote targets. -/
def dedupFirst : List ℕ → List ℕ
  | [] => []
  | x :: xs => x :: (dedupFirst xs).filter (fun y => decide (y ≠ x))

/-- The maximal vote count (`max(vote_tally.values())`). -/
def maxVotes (targets : List ℕ) : ℕ :=
  (targets.map (fun t => targets.count t)).foldr max 0

/-- The ids tied for the maximal vote count (`accused_candidates`). -/
def accusedCandidates (targets : List ℕ) : List ℕ :=
  (dedupFirst targets).filter (fun t => decide (targets.count t = maxVotes targets))

/-- All random draws consumed by one voting phase: per-voter coins and
choice indices, per-player score draws, the boost draws of the analysis,
the tie coin and the choice indices of the tie handling, and the indices of
the two defensive never-taken `random.choice` fallbacks. -/
structure PhaseRand where
  voterCoin : ℕ → ℚ
  voterIdx : ℕ → ℕ
  scoreRand : ℕ → ScoreRand
  boostCoin : ℚ
  boostIdx : ℕ
  tieCoin : ℚ
  tieCrewIdx : ℕ
  tieImpIdx : ℕ
  tieAllIdx : ℕ
  emptyTallyIdx : ℕ
  emptyCandIdx : ℕ

/-- Tie handling of `run_voting_phase`: with several tied candidates, a
mixed-faction tie ejects a random tied Crewmate when the tie coin is below
`0.6` and a random tied Impostor otherwise, while a single-faction tie
ejects a random tied candidate; with at most one candidate, that candidate
is ejected (falling back to a random active player on the empty list). -/
def tieBreak (cands imposterIds crewmateIds activePlayers : List ℕ) (pr : PhaseRand) : ℕ :=
  if 1 < cands.length then
    let impC := cands.filter (fun p => decide (p ∈ imposterIds))
    let crewC := cands.filter (fun p => decide (p ∈ crewmateIds))
    if impC ≠ [] ∧ crewC ≠ [] then
      if pr.tieCoin < 6 / 10 then pickNat crewC pr.tieCrewIdx
      else pickNat impC pr.tieImpIdx
    else pickNat cands pr.tieAllIdx
  else
    match cands with
    | c :: _ => c
    | [] => pickNat activePlayers pr.emptyCandIdx

/-- The sorted suspicion ranking a voting phase works with: the analysis
result over the active ids, completed with the `0.5` default and sorted by
score descending. -/
def phaseSorted (ids imposterIds : List ℕ) (elim : Finset ℕ) (pr : PhaseRand) :
    List (ℕ × ℚ) :=
  sortDesc (fillScores
    (mockSuspectAnalysis (activeOf ids elim) imposterIds pr.scoreRand pr.boostCoin pr.boostIdx)
    (activeOf ids elim))

/-- The recorded votes of one voting phase, one `(voter, target)` pair per
active player. -/
def phaseVotes (ids imposterIds crewmateIds : List ℕ) (elim : Finset ℕ) (pr : PhaseRand) :
    List (ℕ × ℕ) :=
  (activeOf ids elim).map (fun v =>
    (v, voteOf (phaseSorted ids imposterIds elim pr) imposterIds crewmateIds
      (activeOf ids elim) v (pr.voterCoin v) (pr.voterIdx v)))

/-- The multiset of vote targets, with the defensive `{choice(imposter_ids): 1}`
fallback of the source for an empty tally. -/
def phaseTargets (ids imposterIds crewmateIds : List ℕ) (elim : Finset ℕ) (pr : PhaseRand) :
    List ℕ :=
  let ts := (phaseVotes ids imposterIds crewmateIds elim pr).map Prod.snd
  if ts = [] then [pickNat imposterIds pr.emptyTallyIdx] else ts

/-- The id ejected by one voting phase. -/
def phaseAccused (ids imposterIds crewmateIds : List ℕ) (elim : Finset ℕ) (pr : PhaseRand) : ℕ :=
  tieBreak (accusedCandidates (phaseTargets ids imposterIds crewmateIds elim pr))
    imposterIds crewmateIds (activeOf ids elim) pr

/-- Result of one voting phase: the ejected id, the recorded votes and the
updated eliminated set. -/
structure PhaseResult where
  accused : ℕ
  votes : List (ℕ × ℕ)
  eliminated : Finset ℕ
deriving DecidableEq

/-- Embedding of `SpaceWerewolfGame.run_voting_phase`: score, complete,
sort, vote, tally, tie-break, and mark the ejected id eliminated. -/
def runVotingPhase (ids imposterIds crewmateIds : List ℕ) (elim : Finset ℕ)
    (pr : PhaseRand) : PhaseResult :=
  ⟨phaseAccused ids imposterIds crewmateIds elim pr,
   phaseVotes ids imposterIds crewmateIds elim pr,
   insert (phaseAccused ids imposterIds crewmateIds elim pr) elim⟩

/-- The first 2 ids of the shuffled id list become Impostors
(`self.imposter_ids = self.player_ids[:2]`). -/
def imposterIdsOf (shuffled : List ℕ) : List ℕ :=
  shuffled.take 2

/-- The remaining 3 ids become Crewmates (`self.crewmate_ids = self.player_ids[2:]`). -/
def crewmateIdsOf (shuffled : List ℕ) : List ℕ :=
  shuffled.drop 2

/-- The id-to-label mapping built in `SpaceWerewolfGame.__init__`: the
shuffled sampled Impostor labels are zipped to the Impostor ids, the
shuffled sampled Crewmate labels to the Crewmate ids. -/
def roleMapping (shuffled : List ℕ) (selImp selCrew : List Role) : List (ℕ × Role) :=
  (imposterIdsOf shuffled).zip selImp ++ (crewmateIdsOf shuffled).zip selCrew

/-- A concrete all-zero draw package, used to instantiate theorems. -/
def prZero : PhaseRand :=
  ⟨fun _ => 0, fun _ => 0, fun _ => ⟨0, 0, 0⟩, 0, 0, 0, 0, 0, 0, 0, 0⟩

/-- A concrete draw package whose voter coins never fire the random vote,
used to instantiate theorems. -/
def prOne : PhaseRand :=
  ⟨fun _ => 1, fun _ => 0, fun _ => ⟨0, 0, 0⟩, 0, 0, 0, 0, 0, 0, 0, 0⟩

/-- Index produced from a unit draw for a choice among `n` alternatives
(`int(random.random() * n)`). -/
def floorIdx (q : ℚ) (n : ℕ) : ℕ :=
  (⌊q * n⌋).toNat

/-- Swap of two positions of an id list, one step of Fisher-Yates. -/
def swapAtN (l : List ℕ) (i j : ℕ) : List ℕ :=
  (l.set i (l.getD j 0)).set j (l.getD i 0)

/-- Fisher-Yates shuffling of the id list, as performed by
`random.shuffle(self.player_ids)`: position `n+1` is swapped with a drawn
position of `0..n+1`, recursing downwards. -/
def shuffleNAux : ℕ → List ℕ → (ℕ → ℚ) → List ℕ
  | 0, l, _ => l
  | n + 1, l, s =>
    shuffleNAux n (swapAtN l (n + 1) (floorIdx (s 0) (n + 2))) (fun k => s (k + 1))

/-- Shuffle of the five player ids from a draw stream. -/
def shuffle5 (s : ℕ → ℚ) : List ℕ :=
  shuffleNAux 4 playerIds s

/-- Swap of two positions of a label list. -/
def swapAtR (l : List Role) (i j : ℕ) : List Role :=
  (l.set i (l.getD j Role.vic)).set j (l.getD i Role.vic)

/-- Fisher-Yates shuffling of a label list (`random.shuffle` on the
selected role lists). -/
def shuffleRolesAux : ℕ → List Role → (ℕ → ℚ) → List Role
  | 0, l, _ => l
  | n + 1, l, s =>
    shuffleRolesAux n (swapAtR l (n + 1) (floorIdx (s 0) (n + 2))) (fun k => s (k + 1))

/-- Shuffle of a label list from a draw stream. -/
def shuffleRoles (l : List Role) (s : ℕ → ℚ) : List Role :=
  shuffleRolesAux (l.length - 1) l s

/-- Without-replacement sampling of `k` labels from a pool
(`random.sample(pool, k)`): draw an index, remove the drawn label,
recurse. -/
def sampleRoles : ℕ → List Role → (ℕ → ℚ) → List Role
  | 0, _, _ => []
  | k + 1, pool, s =>
    pool.getD (floorIdx (s 0) pool.length) Role.vic ::
      sampleRoles k (pool.eraseIdx (floorIdx (s 0) pool.length)) (fun n => s (n + 1))

/-- The draw package of one voting phase read off the shared stream at a
base offset, so that every random quantity of the phase is a function of
the single per-game pseudorandom source. -/
def phaseRandOf (s : ℕ → ℚ) (b : ℕ) : PhaseRand :=
  ⟨fun v => s (b + v), fun v => floorIdx (s (b + 8 + v)) 5,
   fun v => ⟨s (b + 16 + v), s (b + 24 + v), s (b + 32 + v)⟩,
   s (b + 40), floorIdx (s (b + 41)) 5, s (b + 42), floorIdx (s (b + 43)) 5,
   floorIdx (s (b + 44)) 5, floorIdx (s (b + 45)) 5, floorIdx (s (b + 46)) 5,
   floorIdx (s (b + 47)) 5⟩

/-- The observable outcome of one full game: the faction split, the role
mapping, the per-round ejections and recorded votes, and the winner. -/
structure Outcome where
  imposterIds : List ℕ
  crewmateIds : List ℕ
  roles : List (ℕ × Role)
  ejected : List ℕ
  votes : List (List (ℕ × ℕ))
  winner : Victory
deriving DecidableEq

/-- Embedding of `SpaceWerewolfGame.run` in local simulation mode with the
text-generation collaborator held fixed: role assignment from the shared
stream, then up to two voting rounds with victory evaluation after each,
and the forced decision at the cap. The narration phases only produce the
held-fixed text and do not influence any `Outcome` field; all quantities
below are read off the single stream `s`. -/
def runGame (s : ℕ → ℚ) : Outcome :=
  let shuffled := shuffle5 s
  let imp := imposterIdsOf shuffled
  let crew := crewmateIdsOf shuffled
  let selImp := shuffleRoles (sampleRoles 2 allImposterRoles (fun k => s (10 + k)))
    (fun k => s (14 + k))
  let selCrew := shuffleRoles (sampleRoles 3 allCrewRoles (fun k => s (18 + k)))
    (fun k => s (22 + k))
  let roles := roleMapping shuffled selImp selCrew
  let r1 := runVotingPhase shuffled imp crew ∅ (phaseRandOf s 100)
  let v1 := check_victory imp crew r1.eliminated
  if v1 ≠ Victory.gameOn then
    ⟨imp, crew, roles, [r1.accused], [r1.votes], v1⟩
  else
    let r2 := runVotingPhase shuffled imp crew r1.eliminated (phaseRandOf s 200)
    let v2 := check_victory imp crew r2.eliminated
    if v2 ≠ Victory.gameOn then
      ⟨imp, crew, roles, [r1.accused, r2.accused], [r1.votes, r2.votes], v2⟩
    else
      ⟨imp, crew, roles, [r1.accused, r2.accused], [r1.votes, r2.votes],
        forcedDecision imp crew r2.eliminated⟩

/-! Helper lemmas -/

/-- A `getD` at an index below the length is a member. -/
theorem getD_mem_of_lt {α : Type} (l : List α) (k : ℕ) (d : α) (h : k < l.length) :
    l.getD k d ∈ l := by
  rw [List.getD_eq_get?, List.get?_eq_get h, Option.getD_some]
  exact List.get_mem l k h

/-- The element picked by `pickNat` belongs to the (nonempty) list. -/
theorem pickNat_mem (l : List ℕ) (i : ℕ) (h : l ≠ []) : pickNat l i ∈ l := by
  unfold pickNat
  have hl : 0 < l.length := List.length_pos.mpr h
  exact getD_mem_of_lt l (i % l.length) 0 (Nat.mod_lt _ hl)

/-- Descending insertion permutes consing. -/
theorem insertDesc_perm (x : ℕ × ℚ) (l : List (ℕ × ℚ)) : (insertDesc x l).Perm (x :: l) := by
  induction l with
  | nil => exact List.Perm.refl _
  | cons y ys ih =>
    unfold insertDesc
    split_ifs with h
    · exact List.Perm.refl _
    · exact (ih.cons y).trans (List.Perm.swap x y ys)

/-- The descending sort is a permutation of its input. -/
theorem sortDesc_perm (l : List (ℕ × ℚ)) : (sortDesc l).Perm l := by
  induction l with
  | nil => exact List.Perm.refl _
  | cons x xs ih => exact (insertDesc_perm x (sortDesc xs)).trans (ih.cons x)

/-- Descending insertion preserves the sortedness invariant. -/
theorem insertDesc_pairwise (x : ℕ × ℚ) (l : List (ℕ × ℚ))
    (h : l.Pairwise (fun a b => b.2 ≤ a.2)) :
    (insertDesc x l).Pairwise (fun a b => b.2 ≤ a.2) := by
  induction l with
  | nil => simp [insertDesc]
  | cons y ys ih =>
    rw [List.pairwise_cons] at h
    unfold insertDesc
    split_ifs with hy
    · rw [List.pairwise_cons]
      refine ⟨?_, List.pairwise_cons.mpr h⟩
      intro z hz
      rcases List.mem_cons.mp hz with rfl | hz2
      · exact hy
      · exact le_trans (h.1 z hz2) hy
    · rw [List.pairwise_cons]
      refine ⟨?_, ih h.2⟩
      intro z hz
      have hz2 : z ∈ x :: ys := (insertDesc_perm x ys).mem_iff.mp hz
      rcases List.mem_cons.mp hz2 with rfl | hz3
      · exact le_of_lt (lt_of_not_le hy)
      · exact h.1 z hz3

/-- The descending sort is sorted: every later entry has a score at most
the score of any earlier entry. -/
theorem sortDesc_pairwise (l : List (ℕ × ℚ)) :
    (sortDesc l).Pairwise (fun a b => b.2 ≤ a.2) := by
  induction l with
  | nil => exact List.Pairwise.nil
  | cons x xs ih => exact insertDesc_pairwise x (sortDesc xs) ih

/-- Keys of an id-indexed pair list built by `map`. -/
theorem map_fst_pairs (ids : List ℕ) (f : ℕ → ℚ) :
    (ids.map (fun pid => (pid, f pid))).map Prod.fst = ids := by
  induction ids with
  | nil => rfl
  | cons a t ih =>
    simp only [List.map_cons]
    rw [ih]

/-- Keys of the constant-`0.5` pair list. -/
theorem map_fst_half (l : List ℕ) :
    (l.map (fun pid => (pid, (1 : ℚ) / 2))).map Prod.fst = l := by
  induction l with
  | nil => rfl
  | cons a t ih =>
    simp only [List.map_cons]
    rw [ih]

/-- The boost update of the analysis keeps every key. -/
theorem map_fst_update (l : List (ℕ × ℚ)) (lucky : ℕ) (g : ℕ × ℚ → ℚ) :
    (l.map (fun x => if x.1 = lucky then (x.1, g x) else x)).map Prod.fst =
      l.map Prod.fst := by
  induction l with
  | nil => rfl
  | cons a t ih =>
    simp only [List.map_cons, ih]
    split_ifs <;> rfl

/-- The analysis returns exactly one entry per listed id, in order. -/
theorem mockSuspectAnalysis_keys (ids imp : List ℕ) (r : ℕ → ScoreRand) (bc : ℚ) (bi : ℕ) :
    (mockSuspectAnalysis ids imp r bc bi).map Prod.fst = ids := by
  unfold mockSuspectAnalysis
  split_ifs with h
  · cases hcrew : ids.filter (fun pid => decide (pid ∉ imp)) with
    | nil =>
      exact map_fst_pairs ids _
    | cons c cs =>
      rw [map_fst_update _ _ (fun x => round2 (min (7 / 10) (x.2 + 1 / 10)))]
      exact map_fst_pairs ids _
  · exact map_fst_pairs ids _

/-- Keys of the filled score list: the analysis keys followed by the
defaulted ids. -/
theorem fillScores_keys (sc : List (ℕ × ℚ)) (a : List ℕ) :
    (fillScores sc a).map Prod.fst =
      sc.map Prod.fst ++ a.filter (fun pid => (sc.lookup pid).isNone) := by
  unfold fillScores
  rw [List.map_append, map_fst_half]

/-- The keys of the sorted, filled analysis of a voting phase are a
permutation of the active ids. -/
theorem phaseSorted_keys_perm (ids imp : List ℕ) (elim : Finset ℕ) (pr : PhaseRand) :
    ((phaseSorted ids imp elim pr).map Prod.fst).Perm (activeOf ids elim) := by
  unfold phaseSorted
  have hperm := (sortDesc_perm (fillScores
    (mockSuspectAnalysis (activeOf ids elim) imp pr.scoreRand pr.boostCoin pr.boostIdx)
    (activeOf ids elim))).map Prod.fst
  rw [fillScores_keys, mockSuspectAnalysis_keys] at hperm
  have hfilter : (activeOf ids elim).filter
      (fun pid => ((mockSuspectAnalysis (activeOf ids elim) imp pr.scoreRand pr.boostCoin
        pr.boostIdx).lookup pid).isNone) = [] := by
    rw [List.filter_eq_nil_iff]
    intro p hp hcontra
    have hnone : (mockSuspectAnalysis (activeOf ids elim) imp pr.scoreRand pr.boostCoin
        pr.boostIdx).lookup p = none := by
      cases hcase : (mockSuspectAnalysis (activeOf ids elim) imp pr.scoreRand pr.boostCoin
        pr.boostIdx).lookup p
      · rfl
      · rw [hcase] at hcontra
        cases hcontra
    have hall := List.lookup_eq_none_iff.mp hnone
    have hkey : p ∈ (mockSuspectAnalysis (activeOf ids elim) imp pr.scoreRand pr.boostCoin
        pr.boostIdx).map Prod.fst := by
      rw [mockSuspectAnalysis_keys]
      exact hp
    obtain ⟨q, hq, hq2⟩ := List.mem_map.mp hkey
    have hne := hall q hq
    rw [hq2] at hne
    simp at hne
  rw [hfilter, List.append_nil] at hperm
  exact hperm

/-- Every target `voteOf` can produce is an active player, provided the
ranking's keys are active and the voter is active. -/
theorem voteOf_mem (ss : List (ℕ × ℚ)) (imp crew active : List ℕ) (voter : ℕ)
    (coin : ℚ) (ridx : ℕ) (hvoter : voter ∈ active)
    (hkeys : ∀ p ∈ ss.map Prod.fst, p ∈ active) (hlen0 : 0 < ss.length) :
    voteOf ss imp crew active voter coin ridx ∈ active := by
  have hother : ∀ q ∈ active.filter (fun p => decide (p ≠ voter)), q ∈ active :=
    fun q hq => List.mem_of_mem_filter hq
  have hgetD : ∀ k : ℕ, k < ss.length → (ss.getD k (0, 0)).1 ∈ active := by
    intro k hk
    exact hkeys _ (List.mem_map_of_mem Prod.fst (getD_mem_of_lt ss k (0, 0) hk))
  simp only [voteOf]
  by_cases h1 : active.filter (fun p => decide (p ≠ voter)) = []
  · rw [if_pos h1]
    exact hvoter
  · rw [if_neg h1]
    by_cases h2 : coin < RANDOM_VOTE_RATE
    · rw [if_pos h2]
      exact hother _ (pickNat_mem _ _ h1)
    · rw [if_neg h2]
      by_cases h3 : voter ∈ imp
      · rw [if_pos h3]
        cases hcs : ss.filter (fun x => decide (x.1 ∈ crew ∧ x.1 ≠ voter)) with
        | cons c crest =>
          dsimp only
          have hcf : c ∈ ss.filter (fun x => decide (x.1 ∈ crew ∧ x.1 ≠ voter)) := by
            rw [hcs]
            exact List.mem_cons_self c crest
          exact hkeys _ (List.mem_map_of_mem Prod.fst (List.mem_of_mem_filter hcf))
        | nil =>
          dsimp only
          by_cases h4 : 1 < ss.length
          · rw [if_pos h4]
            exact hgetD 1 h4
          · rw [if_neg h4]
            exact hother _ (pickNat_mem _ _ h1)
      · rw [if_neg h3]
        by_cases h4 : (ss.getD 0 (0, 0)).1 ≠ voter
        · rw [if_pos h4]
          exact hgetD 0 hlen0
        · rw [if_neg h4]
          by_cases h5 : 1 < ss.length
          · rw [if_pos h5]
            exact hgetD 1 h5
          · rw [if_neg h5]
            exact hother _ (pickNat_mem _ _ h1)

/-- First-occurrence deduplication only keeps members. -/
theorem dedupFirst_subset (l : List ℕ) (q : ℕ) (h : q ∈ dedupFirst l) : q ∈ l := by
  induction l with
  | nil => cases h
  | cons x t ih =>
    unfold dedupFirst at h
    rcases List.mem_cons.mp h with rfl | h2
    · exact List.mem_cons_self q t
    · exact List.mem_cons_of_mem x (ih (List.mem_of_mem_filter h2))

/-- The tied candidates are vote targets. -/
theorem accusedCandidates_subset (targets : List ℕ) :
    ∀ q ∈ accusedCandidates targets, q ∈ targets := by
  intro q hq
  unfold accusedCandidates at hq
  exact dedupFirst_subset targets q (List.mem_of_mem_filter hq)

/-- The tie handling always ejects an active player when the candidates
are active and some player is active. -/
theorem tieBreak_mem (cands imp crew active : List ℕ) (pr : PhaseRand)
    (hsub : ∀ q ∈ cands, q ∈ active) (hact : active ≠ []) :
    tieBreak cands imp crew active pr ∈ active := by
  simp only [tieBreak]
  by_cases h1 : 1 < cands.length
  · rw [if_pos h1]
    by_cases h2 : cands.filter (fun p => decide (p ∈ imp)) ≠ [] ∧
        cands.filter (fun p => decide (p ∈ crew)) ≠ []
    · rw [if_pos h2]
      by_cases h3 : pr.tieCoin < 6 / 10
      · rw [if_pos h3]
        exact hsub _ (List.mem_of_mem_filter (pickNat_mem _ _ h2.2))
      · rw [if_neg h3]
        exact hsub _ (List.mem_of_mem_filter (pickNat_mem _ _ h2.1))
    · rw [if_neg h2]
      refine hsub _ (pickNat_mem _ _ ?_)
      intro hnil
      rw [hnil] at h1
      simp at h1
  · rw [if_neg h1]
    cases cands with
    | cons c rest =>
      dsimp only
      exact hsub c (List.mem_cons_self c rest)
    | nil =>
      dsimp only
      exact pickNat_mem _ _ hact

/-- In a state with at most two eliminations, at least one of the three
distinct Crewmates is still active. -/
theorem one_le_activeCount (crew : List ℕ) (elim : Finset ℕ)
    (hnd : crew.Nodup) (hlen : crew.length = 3) (hcard : elim.card ≤ 2) :
    1 ≤ activeCount crew elim := by
  have hsplit := (List.filter_append_perm (fun p => decide (p ∉ elim)) crew).length_eq
  rw [List.length_append, hlen] at hsplit
  have hg : (crew.filter (fun p => !(decide (p ∉ elim)))).length ≤ elim.card := by
    have hgnd : (crew.filter (fun p => !(decide (p ∉ elim)))).Nodup := hnd.filter _
    have hsub : (crew.filter (fun p => !(decide (p ∉ elim)))).toFinset ⊆ elim := by
      intro x hx
      rw [List.mem_toFinset, List.mem_filter] at hx
      have hx2 := hx.2
      simp only [Bool.not_eq_true', decide_eq_false_iff_not, not_not] at hx2
      exact hx2
    calc (crew.filter (fun p => !(decide (p ∉ elim)))).length
        = (crew.filter (fun p => !(decide (p ∉ elim)))).toFinset.card :=
          (List.toFinset_card_of_nodup hgnd).symm
      _ ≤ elim.card := Finset.card_le_card hsub
  unfold activeCount
  omega

/-- C2: on every state with at most two eliminations (hence at least one
active Crewmate, which covers all states reachable after a vote), the
victory check reports an Impostor win iff the active Impostors are at least
as many as the active Crewmates or no Crewmate is active, a Crewmate win
iff no Impostor is active, and game-on otherwise. -/
theorem claim_c2_victory_check (imp crew : List ℕ) (elim : Finset ℕ)
    (hnd : crew.Nodup) (hlen : crew.length = 3) (hcard : elim.card ≤ 2) :
    (check_victory imp crew elim = Victory.impostorsWin ↔
      (activeCount crew elim ≤ activeCount imp elim ∨ activeCount crew elim = 0)) ∧
    (check_victory imp crew elim = Victory.crewmatesWin ↔ activeCount imp elim = 0) ∧
    (check_victory imp crew elim = Victory.gameOn ↔
      (activeCount imp elim < activeCount crew elim ∧ activeCount imp elim ≠ 0)) := by
  have hac := one_le_activeCount crew elim hnd hlen hcard
  unfold check_victory
  split_ifs with h1 h2 <;>
    refine ⟨?_, ?_, ?_⟩ <;> simp_all <;> omega

/-- C2 witness: the claim instantiated on the post-round-1 state in which
Impostor 1 was ejected. -/
theorem claim_c2_victory_check_witness :
    ([3, 4, 5] : List ℕ).Nodup ∧ ([3, 4, 5] : List ℕ).length = 3 ∧
    ({1} : Finset ℕ).card ≤ 2 ∧
    ((check_victory [1, 2] [3, 4, 5] ({1} : Finset ℕ) = Victory.impostorsWin ↔
      (activeCount [3, 4, 5] ({1} : Finset ℕ) ≤ activeCount [1, 2] ({1} : Finset ℕ) ∨
        activeCount [3, 4, 5] ({1} : Finset ℕ) = 0)) ∧
    (check_victory [1, 2] [3, 4, 5] ({1} : Finset ℕ) = Victory.crewmatesWin ↔
      activeCount [1, 2] ({1} : Finset ℕ) = 0) ∧
    (check_victory [1, 2] [3, 4, 5] ({1} : Finset ℕ) = Victory.gameOn ↔
      (activeCount [1, 2] ({1} : Finset ℕ) < activeCount [3, 4, 5] ({1} : Finset ℕ) ∧
        activeCount [1, 2] ({1} : Finset ℕ) ≠ 0))) :=
  ⟨by decide, by decide, by decide,
    claim_c2_victory_check [1, 2] [3, 4, 5] {1} (by decide) (by decide) (by decide)⟩

/-- C3: whenever the victory check leaves the game open (so in particular
after the second voting round, where only one Impostor and two Crewmates
remain), the forced decision at the round cap declares Crewmates the
winner by default majority, the active Impostors being neither zero nor at
least the active Crewmates. -/
theorem claim_c3_forced_decision (imp crew : List ℕ) (elim : Finset ℕ)
    (h : check_victory imp crew elim = Victory.gameOn) :
    forcedDecision imp crew elim = Victory.crewmatesWin ∧
    activeCount imp elim ≠ 0 ∧
    activeCount imp elim < activeCount crew elim := by
  unfold check_victory at h
  split_ifs at h with h1 h2
  push_neg at h1
  obtain ⟨hlt, hne⟩ := h1
  refine ⟨?_, h2, hlt⟩
  unfold forcedDecision
  split_ifs with g1
  · omega
  · rfl

/-- C3 witness: the boundary state after round 2 with one active Impostor
and two active Crewmates, where the forced decision yields a Crewmate
win. -/
theorem claim_c3_forced_decision_witness :
    check_victory [1, 2] [3, 4, 5] ({1, 3} : Finset ℕ) = Victory.gameOn ∧
    (forcedDecision [1, 2] [3, 4, 5] ({1, 3} : Finset ℕ) = Victory.crewmatesWin ∧
    activeCount [1, 2] ({1, 3} : Finset ℕ) ≠ 0 ∧
    activeCount [1, 2] ({1, 3} : Finset ℕ) < activeCount [3, 4, 5] ({1, 3} : Finset ℕ)) :=
  ⟨by decide, claim_c3_forced_decision [1, 2] [3, 4, 5] {1, 3} (by decide)⟩

/-- Labels of the two pools never coincide. -/
theorem imposter_roles_disjoint : ∀ r ∈ allImposterRoles, r ∉ allCrewRoles := by
  decide

/-- C4: for every shuffle of the five ids and every without-replacement
sample of two Impostor labels and three Crewmate labels, the assignment
splits the ids into two Impostors and three Crewmates, disjoint with union
all five ids, and maps the ids bijectively to distinct labels, Impostor ids
to Impostor-pool labels and Crewmate ids to Crewmate-pool labels. -/
theorem claim_c4_role_assignment (shuffled : List ℕ) (selImp selCrew : List Role)
    (hs : shuffled.Perm playerIds)
    (hil : selImp.length = 2) (hin : selImp.Nodup)
    (hip : ∀ r ∈ selImp, r ∈ allImposterRoles)
    (hcl : selCrew.length = 3) (hcn : selCrew.Nodup)
    (hcp : ∀ r ∈ selCrew, r ∈ allCrewRoles) :
    (imposterIdsOf shuffled).length = 2 ∧
    (crewmateIdsOf shuffled).length = 3 ∧
    (∀ p ∈ imposterIdsOf shuffled, p ∉ crewmateIdsOf shuffled) ∧
    (imposterIdsOf shuffled ++ crewmateIdsOf shuffled).Perm playerIds ∧
    ((roleMapping shuffled selImp selCrew).map Prod.fst).Perm playerIds ∧
    ((roleMapping shuffled selImp selCrew).map Prod.fst).Nodup ∧
    ((roleMapping shuffled selImp selCrew).map Prod.snd).Nodup ∧
    (∀ x ∈ roleMapping shuffled selImp selCrew,
      (x.1 ∈ imposterIdsOf shuffled → x.2 ∈ allImposterRoles) ∧
      (x.1 ∈ crewmateIdsOf shuffled → x.2 ∈ allCrewRoles)) := by
  have hlen5 : shuffled.length = 5 := by
    have := hs.length_eq
    simpa [playerIds] using this
  have hti : imposterIdsOf shuffled = shuffled.take 2 := rfl
  have htc : crewmateIdsOf shuffled = shuffled.drop 2 := rfl
  have hl2 : (imposterIdsOf shuffled).length = 2 := by
    rw [hti, List.length_take, hlen5]; rfl
  have hl3 : (crewmateIdsOf shuffled).length = 3 := by
    rw [htc, List.length_drop, hlen5]
  have hnod : shuffled.Nodup := hs.nodup_iff.mpr (by decide)
  have happ : imposterIdsOf shuffled ++ crewmateIdsOf shuffled = shuffled := by
    rw [hti, htc, List.take_append_drop]
  have hdisj : ∀ p ∈ imposterIdsOf shuffled, p ∉ crewmateIdsOf shuffled := by
    have := hnod
    rw [← happ, List.nodup_append] at this
    exact fun p hp hq => this.2.2 hp hq
  have hperm : (imposterIdsOf shuffled ++ crewmateIdsOf shuffled).Perm playerIds := by
    rw [happ]; exact hs
  have hmapfst : (roleMapping shuffled selImp selCrew).map Prod.fst =
      imposterIdsOf shuffled ++ crewmateIdsOf shuffled := by
    unfold roleMapping
    rw [List.map_append, List.map_fst_zip, List.map_fst_zip]
    · rw [hl3, hcl]
    · rw [hl2, hil]
  have hmapsnd : (roleMapping shuffled selImp selCrew).map Prod.snd = selImp ++ selCrew := by
    unfold roleMapping
    rw [List.map_append, List.map_snd_zip, List.map_snd_zip]
    · rw [hl3, hcl]
    · rw [hl2, hil]
  refine ⟨hl2, hl3, hdisj, hperm, ?_, ?_, ?_, ?_⟩
  · rw [hmapfst]; exact hperm
  · rw [hmapfst]
    exact hperm.nodup_iff.mpr (by decide)
  · rw [hmapsnd, List.nodup_append]
    exact ⟨hin, hcn, fun r hr hr2 => imposter_roles_disjoint r (hip r hr) (hcp r hr2)⟩
  · intro x hx
    unfold roleMapping at hx
    rcases List.mem_append.mp hx with hx1 | hx2
    · have hmem := List.of_mem_zip hx1
      exact ⟨fun _ => hip x.2 hmem.2, fun hc => absurd hc (hdisj x.1 hmem.1)⟩
    · have hmem := List.of_mem_zip hx2
      exact ⟨fun hi => absurd hmem.1 (hdisj x.1 hi), fun _ => hcp x.2 hmem.2⟩

/-- C4 witness: the claim instantiated on a concrete shuffle and a concrete
label sample. -/
theorem claim_c4_role_assignment_witness :
    ([2, 4, 1, 3, 5] : List ℕ).Perm playerIds ∧
    ([Role.jack, Role.vic] : List Role).length = 2 ∧
    ([Role.jack, Role.vic] : List Role).Nodup ∧
    (∀ r ∈ ([Role.jack, Role.vic] : List Role), r ∈ allImposterRoles) ∧
    ([Role.lucy, Role.kai, Role.ella] : List Role).length = 3 ∧
    ([Role.lucy, Role.kai, Role.ella] : List Role).Nodup ∧
    (∀ r ∈ ([Role.lucy, Role.kai, Role.ella] : List Role), r ∈ allCrewRoles) ∧
    ((imposterIdsOf [2, 4, 1, 3, 5]).length = 2 ∧
     (crewmateIdsOf [2, 4, 1, 3, 5]).length = 3 ∧
     (∀ p ∈ imposterIdsOf [2, 4, 1, 3, 5], p ∉ crewmateIdsOf [2, 4, 1, 3, 5]) ∧
     (imposterIdsOf [2, 4, 1, 3, 5] ++ crewmateIdsOf [2, 4, 1, 3, 5]).Perm playerIds ∧
     ((roleMapping [2, 4, 1, 3, 5] [Role.jack, Role.vic]
        [Role.lucy, Role.kai, Role.ella]).map Prod.fst).Perm playerIds ∧
     ((roleMapping [2, 4, 1, 3, 5] [Role.jack, Role.vic]
        [Role.lucy, Role.kai, Role.ella]).map Prod.fst).Nodup ∧
     ((roleMapping [2, 4, 1, 3, 5] [Role.jack, Role.vic]
        [Role.lucy, Role.kai, Role.ella]).map Prod.snd).Nodup ∧
     (∀ x ∈ roleMapping [2, 4, 1, 3, 5] [Role.jack, Role.vic]
        [Role.lucy, Role.kai, Role.ella],
       (x.1 ∈ imposterIdsOf [2, 4, 1, 3, 5] → x.2 ∈ allImposterRoles) ∧
       (x.1 ∈ crewmateIdsOf [2, 4, 1, 3, 5] → x.2 ∈ allCrewRoles))) :=
  ⟨by decide, by decide, by decide, by decide, by decide, by decide, by decide,
    claim_c4_role_assignment [2, 4, 1, 3, 5] [Role.jack, Role.vic]
      [Role.lucy, Role.kai, Role.ella] (by decide) (by decide) (by decide) (by decide)
      (by decide) (by decide) (by decide)⟩

/-- Rounding to two decimals keeps a nonnegative value nonnegative. -/
theorem round2_nonneg (q : ℚ) (h : 0 ≤ q) : 0 ≤ round2 q := by
  unfold round2
  have h1 : (0 : ℤ) ≤ round (q * 100) := by
    rw [round_eq]
    exact Int.floor_nonneg.mpr (by linarith)
  have h2 : (0 : ℚ) ≤ ((round (q * 100) : ℤ) : ℚ) := by exact_mod_cast h1
  exact div_nonneg h2 (by norm_num)

/-- Rounding to two decimals keeps a value of at most one at most one. -/
theorem round2_le_one (q : ℚ) (h : q ≤ 1) : round2 q ≤ 1 := by
  unfold round2
  have h1 : round (q * 100) ≤ (100 : ℤ) := by
    rw [round_eq]
    have hf : (⌊(201 : ℚ) / 2⌋ : ℤ) = 100 := by
      rw [Int.floor_eq_iff] <;> norm_num
    have hmono : (⌊q * 100 + 1 / 2⌋ : ℤ) ≤ ⌊(201 : ℚ) / 2⌋ := Int.floor_le_floor (by linarith)
    rw [hf] at hmono
    exact hmono
  have h2 : ((round (q * 100) : ℤ) : ℚ) ≤ 100 := by exact_mod_cast h1
  rw [div_le_one (by norm_num)]
  exact h2

/-- Raw heuristic scores stay within `[0, 0.7]` when the unit draws are in
`[0, 1)`: an Impostor base lies in `[0.35, 0.65)` and loses at most `0.1`,
a Crewmate base lies in `[0.25, 0.6)` and gains less than `0.1`. -/
theorem rawScore_bounds (b : Bool) (r : ScoreRand)
    (hb0 : 0 ≤ r.base) (hb1 : r.base < 1) (ha0 : 0 ≤ r.adj) (ha1 : r.adj < 1) :
    0 ≤ rawScore b r ∧ rawScore b r ≤ 7 / 10 := by
  unfold rawScore
  cases b <;> split_ifs <;> constructor <;> nlinarith

/-- C7: every score produced by the fallback suspicion heuristic
`_mock_suspect_analysis` is a rational in `[0, 1]` that is an exact
multiple of `1/100` (rounded to two decimal places), and it is either the
rounded faction-specific raw score of its player — Impostor base uniform in
`[0.35, 0.65)` reduced with probability one half by a uniform
`[0.05, 0.10)` amount, Crewmate base uniform in `[0.25, 0.6)` increased
with probability `0.3` by a uniform `[0.05, 0.10)` amount — or, for one
Crewmate chosen when the boost coin fires (probability `0.2`), that score
boosted by `+0.1` and capped at `0.7`. -/
theorem claim_c7_mock_score_range (ids imp : List ℕ) (r : ℕ → ScoreRand) (bc : ℚ) (bi : ℕ)
    (hb : ∀ pid, 0 ≤ (r pid).base ∧ (r pid).base < 1)
    (ha : ∀ pid, 0 ≤ (r pid).adj ∧ (r pid).adj < 1) :
    ∀ x ∈ mockSuspectAnalysis ids imp r bc bi,
      0 ≤ x.2 ∧ x.2 ≤ 1 ∧ (∃ n : ℤ, x.2 = (n : ℚ) / 100) ∧
      (x.2 = round2 (rawScore (x.1 ∈ imp) (r x.1)) ∨
        (x.1 ∉ imp ∧
          x.2 = round2 (min (7 / 10) (round2 (rawScore (x.1 ∈ imp) (r x.1)) + 1 / 10)))) := by
  intro x hx
  have hbase : ∀ pid, 0 ≤ round2 (rawScore (pid ∈ imp) (r pid)) ∧
      round2 (rawScore (pid ∈ imp) (r pid)) ≤ 1 := by
    intro pid
    have hr := rawScore_bounds (pid ∈ imp) (r pid) (hb pid).1 (hb pid).2 (ha pid).1 (ha pid).2
    exact ⟨round2_nonneg _ hr.1, round2_le_one _ (by linarith [hr.2])⟩
  unfold mockSuspectAnalysis at hx
  by_cases hbc : bc < 2 / 10
  · simp only [if_pos hbc] at hx
    cases hcrew : ids.filter (fun pid => decide (pid ∉ imp)) with
    | nil =>
      rw [hcrew] at hx
      simp only [List.mem_map] at hx
      obtain ⟨pid, _, rfl⟩ := hx
      exact ⟨(hbase pid).1, (hbase pid).2, ⟨round (rawScore (pid ∈ imp) (r pid) * 100), rfl⟩,
        Or.inl rfl⟩
    | cons c cs =>
      rw [hcrew] at hx
      simp only [List.mem_map] at hx
      obtain ⟨y, ⟨pid, hpidmem, rfl⟩, rfl⟩ := hx
      dsimp only
      by_cases hl : pid = pickNat (c :: cs) bi
      · have hlucky : pickNat (c :: cs) bi ∈ c :: cs := pickNat_mem _ _ (by simp)
        have hnimp : pid ∉ imp := by
          have hlucky2 : pickNat (c :: cs) bi ∈ ids.filter (fun pid => decide (pid ∉ imp)) := by
            rw [hcrew]
            exact hlucky
          have hmf := List.mem_filter.mp hlucky2
          rw [hl]
          exact of_decide_eq_true hmf.2
        have hmin0 : 0 ≤ min ((7 : ℚ) / 10) (round2 (rawScore (pid ∈ imp) (r pid)) + 1 / 10) :=
          le_min (by norm_num) (by linarith [(hbase pid).1])
        have hmin1 : min ((7 : ℚ) / 10) (round2 (rawScore (pid ∈ imp) (r pid)) + 1 / 10) ≤ 1 :=
          le_trans (min_le_left _ _) (by norm_num)
        rw [if_pos hl]
        exact ⟨round2_nonneg _ hmin0, round2_le_one _ hmin1,
          ⟨round (min (7 / 10) (round2 (rawScore (pid ∈ imp) (r pid)) + 1 / 10) * 100), rfl⟩,
          Or.inr ⟨hnimp, rfl⟩⟩
      · rw [if_neg hl]
        exact ⟨(hbase pid).1, (hbase pid).2, ⟨round (rawScore (pid ∈ imp) (r pid) * 100), rfl⟩,
          Or.inl rfl⟩
  · simp only [if_neg hbc] at hx
    simp only [List.mem_map] at hx
    obtain ⟨pid, _, rfl⟩ := hx
    exact ⟨(hbase pid).1, (hbase pid).2, ⟨round (rawScore (pid ∈ imp) (r pid) * 100), rfl⟩,
      Or.inl rfl⟩

/-- C7 witness: the claim instantiated on concrete draws and evaluated at
the resulting score entry of player 1. -/
theorem claim_c7_mock_score_range_witness :
    ((1, (43 : ℚ) / 100) ∈ mockSuspectAnalysis [1, 2, 3, 4, 5] [1, 2]
      (fun _ => ScoreRand.mk (1 / 2) (1 / 4) (1 / 3)) (1 / 10) 0) ∧
    (0 ≤ (43 : ℚ) / 100 ∧ (43 : ℚ) / 100 ≤ 1 ∧
      (∃ n : ℤ, (43 : ℚ) / 100 = (n : ℚ) / 100) ∧
      ((43 : ℚ) / 100 =
          round2 (rawScore ((1 : ℕ) ∈ [1, 2]) (ScoreRand.mk (1 / 2) (1 / 4) (1 / 3))) ∨
        ((1 : ℕ) ∉ [1, 2] ∧
          (43 : ℚ) / 100 =
            round2 (min (7 / 10)
              (round2 (rawScore ((1 : ℕ) ∈ [1, 2]) (ScoreRand.mk (1 / 2) (1 / 4) (1 / 3))) +
                1 / 10))))) := by
  have hmem : (1, (43 : ℚ) / 100) ∈ mockSuspectAnalysis [1, 2, 3, 4, 5] [1, 2]
      (fun _ => ScoreRand.mk (1 / 2) (1 / 4) (1 / 3)) (1 / 10) 0 := by
    norm_num [mockSuspectAnalysis, rawScore, pickNat, round2, round_eq]
  exact ⟨hmem,
    claim_c7_mock_score_range [1, 2, 3, 4, 5] [1, 2]
      (fun _ => ScoreRand.mk (1 / 2) (1 / 4) (1 / 3)) (1 / 10) 0
      (fun _ => ⟨by norm_num, by norm_num⟩) (fun _ => ⟨by norm_num, by norm_num⟩)
      (1, (43 : ℚ) / 100) hmem⟩

/-- Lookup in the constant-`0.5` association list built from a member. -/
theorem lookup_map_half (l : List ℕ) (a : ℕ) (h : a ∈ l) :
    (l.map (fun p => (p, (1 : ℚ) / 2))).lookup a = some (1 / 2) := by
  induction l with
  | nil => cases h
  | cons x t ih =>
    by_cases hax : a = x
    · subst hax
      simp
    · have hat : a ∈ t := by
        rcases List.mem_cons.mp h with h1 | h1
        · exact absurd h1 hax
        · exact h1
      have hbeq : (a == x) = false := beq_eq_false_iff_ne.mpr hax
      rw [List.map_cons, List.lookup_cons, hbeq]
      exact ih hat

/-- C8: after the caller-side fill, every active id has a score entry; an
id the analysis left out gets exactly the neutral default `0.5`, and an id
the analysis did score keeps its score. -/
theorem claim_c8_missing_score_default (scores : List (ℕ × ℚ)) (active : List ℕ) :
    ∀ pid ∈ active,
      ((fillScores scores active).lookup pid).isSome = true ∧
      (scores.lookup pid = none →
        (fillScores scores active).lookup pid = some (1 / 2)) ∧
      (∀ v, scores.lookup pid = some v →
        (fillScores scores active).lookup pid = some v) := by
  intro pid hpid
  unfold fillScores
  rw [List.lookup_append]
  cases hsc : scores.lookup pid with
  | some v =>
    refine ⟨by simp, ?_, ?_⟩
    · intro hnone
      cases hnone
    · intro v2 hv2
      injection hv2 with hv
      subst hv
      simp
  | none =>
    have hmem : pid ∈ active.filter (fun pid => (scores.lookup pid).isNone) :=
      List.mem_filter.mpr ⟨hpid, by rw [hsc]; rfl⟩
    have hlook := lookup_map_half _ pid hmem
    refine ⟨?_, fun _ => ?_, ?_⟩
    · rw [Option.none_or, hlook]
      rfl
    · rw [Option.none_or]
      exact hlook
    · intro v2 hv2
      cases hv2

/-- C8 witness: the claim instantiated on a score list that misses active
id 2, which therefore receives the default `0.5`. -/
theorem claim_c8_missing_score_default_witness :
    (2 ∈ ([1, 2] : List ℕ)) ∧
    (((fillScores [(1, (7 : ℚ) / 10)] [1, 2]).lookup 2).isSome = true ∧
      (([(1, (7 : ℚ) / 10)] : List (ℕ × ℚ)).lookup 2 = none →
        (fillScores [(1, (7 : ℚ) / 10)] [1, 2]).lookup 2 = some (1 / 2)) ∧
      (∀ v, ([(1, (7 : ℚ) / 10)] : List (ℕ × ℚ)).lookup 2 = some v →
        (fillScores [(1, (7 : ℚ) / 10)] [1, 2]).lookup 2 = some v)) :=
  ⟨by decide, claim_c8_missing_score_default [(1, (7 : ℚ) / 10)] [1, 2] 2 (by decide)⟩

/-- Every recorded vote target of a phase is an active player. -/
theorem phaseVotes_target_active (ids imp crew : List ℕ) (elim : Finset ℕ) (pr : PhaseRand)
    (hact : activeOf ids elim ≠ []) :
    ∀ x ∈ phaseVotes ids imp crew elim pr, x.2 ∈ activeOf ids elim := by
  have hkeysperm := phaseSorted_keys_perm ids imp elim pr
  have hkeys : ∀ p ∈ (phaseSorted ids imp elim pr).map Prod.fst, p ∈ activeOf ids elim :=
    fun p hp => hkeysperm.mem_iff.mp hp
  have hlen0 : 0 < (phaseSorted ids imp elim pr).length := by
    have h1 : (phaseSorted ids imp elim pr).length = (activeOf ids elim).length := by
      have h2 := hkeysperm.length_eq
      simpa using h2
    rw [h1]
    exact List.length_pos.mpr hact
  intro x hx
  unfold phaseVotes at hx
  obtain ⟨v, hv, rfl⟩ := List.mem_map.mp hx
  exact voteOf_mem _ _ _ _ _ _ _ hv hkeys hlen0

/-- C1: every call of the voting phase on a state with at least one active
player ejects exactly one id, that id is active at the time of the call,
and the eliminated set becomes exactly the old set plus that id, growing
by exactly one. -/
theorem claim_c1_vote_eliminates_exactly_one (ids imp crew : List ℕ) (elim : Finset ℕ)
    (pr : PhaseRand) (hact : activeOf ids elim ≠ []) :
    (runVotingPhase ids imp crew elim pr).accused ∈ activeOf ids elim ∧
    (runVotingPhase ids imp crew elim pr).accused ∉ elim ∧
    (runVotingPhase ids imp crew elim pr).eliminated =
      insert (runVotingPhase ids imp crew elim pr).accused elim ∧
    (runVotingPhase ids imp crew elim pr).eliminated.card = elim.card + 1 ∧
    elim ⊆ (runVotingPhase ids imp crew elim pr).eliminated := by
  have htargets : ∀ t ∈ phaseTargets ids imp crew elim pr, t ∈ activeOf ids elim := by
    intro t ht
    unfold phaseTargets at ht
    have hvne : (phaseVotes ids imp crew elim pr).map Prod.snd ≠ [] := by
      unfold phaseVotes
      rw [List.map_map]
      intro hcontra
      exact hact (List.map_eq_nil_iff.mp hcontra)
    rw [if_neg hvne] at ht
    obtain ⟨x, hx, rfl⟩ := List.mem_map.mp ht
    exact phaseVotes_target_active ids imp crew elim pr hact x hx
  have haccused : phaseAccused ids imp crew elim pr ∈ activeOf ids elim := by
    unfold phaseAccused
    refine tieBreak_mem _ _ _ _ _ ?_ hact
    intro q hq
    exact htargets _ (accusedCandidates_subset _ _ hq)
  have hnotelim : phaseAccused ids imp crew elim pr ∉ elim := by
    have hmf := List.mem_filter.mp haccused
    exact of_decide_eq_true hmf.2
  refine ⟨haccused, hnotelim, rfl, ?_, ?_⟩
  · exact Finset.card_insert_of_not_mem hnotelim
  · intro x hx
    exact Finset.mem_insert_of_mem hx

/-- C1 witness: the claim instantiated on the initial game state with
all-zero draws. -/
theorem claim_c1_vote_eliminates_exactly_one_witness :
    activeOf [1, 2, 3, 4, 5] (∅ : Finset ℕ) ≠ [] ∧
    ((runVotingPhase [1, 2, 3, 4, 5] [1, 2] [3, 4, 5] ∅ prZero).accused ∈
      activeOf [1, 2, 3, 4, 5] (∅ : Finset ℕ) ∧
    (runVotingPhase [1, 2, 3, 4, 5] [1, 2] [3, 4, 5] ∅ prZero).accused ∉ (∅ : Finset ℕ) ∧
    (runVotingPhase [1, 2, 3, 4, 5] [1, 2] [3, 4, 5] ∅ prZero).eliminated =
      insert (runVotingPhase [1, 2, 3, 4, 5] [1, 2] [3, 4, 5] ∅ prZero).accused ∅ ∧
    (runVotingPhase [1, 2, 3, 4, 5] [1, 2] [3, 4, 5] ∅ prZero).eliminated.card =
      (∅ : Finset ℕ).card + 1 ∧
    (∅ : Finset ℕ) ⊆ (runVotingPhase [1, 2, 3, 4, 5] [1, 2] [3, 4, 5] ∅ prZero).eliminated) :=
  ⟨by decide,
    claim_c1_vote_eliminates_exactly_one [1, 2, 3, 4, 5] [1, 2] [3, 4, 5] ∅ prZero (by decide)⟩

/-- C6: with two or more tied candidates, a mixed-faction tie ejects the
tied Crewmate picked by the choice draw exactly when the unit tie coin
falls below `0.6` (so with probability `0.6` for a uniform coin), and the
tied Impostor picked by the choice draw otherwise; a single-faction tie
ejects the tied candidate picked by the choice draw. `pickNat` at a
uniformly drawn index is the uniform choice among the respective list. -/
theorem claim_c6_tie_break (cands imp crew active : List ℕ) (pr : PhaseRand)
    (hlen : 1 < cands.length) :
    (cands.filter (fun p => decide (p ∈ imp)) ≠ [] →
      cands.filter (fun p => decide (p ∈ crew)) ≠ [] →
      (pr.tieCoin < 6 / 10 →
        tieBreak cands imp crew active pr =
          pickNat (cands.filter (fun p => decide (p ∈ crew))) pr.tieCrewIdx ∧
        tieBreak cands imp crew active pr ∈ cands.filter (fun p => decide (p ∈ crew)) ∧
        tieBreak cands imp crew active pr ∈ crew) ∧
      (¬ pr.tieCoin < 6 / 10 →
        tieBreak cands imp crew active pr =
          pickNat (cands.filter (fun p => decide (p ∈ imp))) pr.tieImpIdx ∧
        tieBreak cands imp crew active pr ∈ cands.filter (fun p => decide (p ∈ imp)) ∧
        tieBreak cands imp crew active pr ∈ imp)) ∧
    ((cands.filter (fun p => decide (p ∈ imp)) = [] ∨
      cands.filter (fun p => decide (p ∈ crew)) = []) →
      tieBreak cands imp crew active pr = pickNat cands pr.tieAllIdx ∧
      tieBreak cands imp crew active pr ∈ cands) := by
  have hcne : cands ≠ [] := by
    intro hnil
    rw [hnil] at hlen
    simp at hlen
  constructor
  · intro hi hc
    constructor
    · intro h3
      have heq : tieBreak cands imp crew active pr =
          pickNat (cands.filter (fun p => decide (p ∈ crew))) pr.tieCrewIdx := by
        simp only [tieBreak]
        rw [if_pos hlen, if_pos ⟨hi, hc⟩, if_pos h3]
      have hmem : tieBreak cands imp crew active pr ∈
          cands.filter (fun p => decide (p ∈ crew)) := by
        rw [heq]
        exact pickNat_mem _ _ hc
      exact ⟨heq, hmem, of_decide_eq_true (List.mem_filter.mp hmem).2⟩
    · intro h3
      have heq : tieBreak cands imp crew active pr =
          pickNat (cands.filter (fun p => decide (p ∈ imp))) pr.tieImpIdx := by
        simp only [tieBreak]
        rw [if_pos hlen, if_pos ⟨hi, hc⟩, if_neg h3]
      have hmem : tieBreak cands imp crew active pr ∈
          cands.filter (fun p => decide (p ∈ imp)) := by
        rw [heq]
        exact pickNat_mem _ _ hi
      exact ⟨heq, hmem, of_decide_eq_true (List.mem_filter.mp hmem).2⟩
  · intro hdisj
    have hmix : ¬(cands.filter (fun p => decide (p ∈ imp)) ≠ [] ∧
        cands.filter (fun p => decide (p ∈ crew)) ≠ []) := by
      rcases hdisj with h | h
      · intro hcontra
        exact hcontra.1 h
      · intro hcontra
        exact hcontra.2 h
    have heq : tieBreak cands imp crew active pr = pickNat cands pr.tieAllIdx := by
      simp only [tieBreak]
      rw [if_pos hlen, if_neg hmix]
    refine ⟨heq, ?_⟩
    rw [heq]
    exact pickNat_mem _ _ hcne

/-- C6 witness: a mixed tie between Impostor 1 and Crewmate 3 with the
all-zero draws, whose tie coin lies below `0.6`. -/
theorem claim_c6_tie_break_witness :
    1 < ([1, 3] : List ℕ).length ∧
    ((([1, 3] : List ℕ).filter (fun p => decide (p ∈ ([1, 2] : List ℕ))) ≠ [] →
      ([1, 3] : List ℕ).filter (fun p => decide (p ∈ ([3, 4, 5] : List ℕ))) ≠ [] →
      (prZero.tieCoin < 6 / 10 →
        tieBreak [1, 3] [1, 2] [3, 4, 5] [1, 2, 3, 4, 5] prZero =
          pickNat (([1, 3] : List ℕ).filter (fun p => decide (p ∈ ([3, 4, 5] : List ℕ))))
            prZero.tieCrewIdx ∧
        tieBreak [1, 3] [1, 2] [3, 4, 5] [1, 2, 3, 4, 5] prZero ∈
          ([1, 3] : List ℕ).filter (fun p => decide (p ∈ ([3, 4, 5] : List ℕ))) ∧
        tieBreak [1, 3] [1, 2] [3, 4, 5] [1, 2, 3, 4, 5] prZero ∈ ([3, 4, 5] : List ℕ)) ∧
      (¬ prZero.tieCoin < 6 / 10 →
        tieBreak [1, 3] [1, 2] [3, 4, 5] [1, 2, 3, 4, 5] prZero =
          pickNat (([1, 3] : List ℕ).filter (fun p => decide (p ∈ ([1, 2] : List ℕ))))
            prZero.tieImpIdx ∧
        tieBreak [1, 3] [1, 2] [3, 4, 5] [1, 2, 3, 4, 5] prZero ∈
          ([1, 3] : List ℕ).filter (fun p => decide (p ∈ ([1, 2] : List ℕ))) ∧
        tieBreak [1, 3] [1, 2] [3, 4, 5] [1, 2, 3, 4, 5] prZero ∈ ([1, 2] : List ℕ))) ∧
    ((([1, 3] : List ℕ).filter (fun p => decide (p ∈ ([1, 2] : List ℕ))) = [] ∨
      ([1, 3] : List ℕ).filter (fun p => decide (p ∈ ([3, 4, 5] : List ℕ))) = []) →
      tieBreak [1, 3] [1, 2] [3, 4, 5] [1, 2, 3, 4, 5] prZero =
        pickNat [1, 3] prZero.tieAllIdx ∧
      tieBreak [1, 3] [1, 2] [3, 4, 5] [1, 2, 3, 4, 5] prZero ∈ ([1, 3] : List ℕ))) :=
  ⟨by decide, claim_c6_tie_break [1, 3] [1, 2] [3, 4, 5] [1, 2, 3, 4, 5] prZero (by decide)⟩

/-- A list with two or more distinct members has a member different from
any given value. -/
theorem exists_ne_of_two_le (l : List ℕ) (v : ℕ) (hn : l.Nodup) (hl : 2 ≤ l.length) :
    ∃ p ∈ l, p ≠ v := by
  match l, hl with
  | a :: b :: t, _ =>
    have hab : a ≠ b := by
      rcases List.pairwise_cons.mp hn with ⟨h1, _⟩
      exact h1 b (List.mem_cons_self b t)
    by_cases hav : a = v
    · refine ⟨b, List.mem_cons_of_mem a (List.mem_cons_self b t), ?_⟩
      intro hbv
      exact hab (by rw [hav, hbv])
    · exact ⟨a, List.mem_cons_self a (b :: t), hav⟩

/-- Reduction of `voteOf` for a non-random Crewmate voter. -/
theorem voteOf_crew_eq (ss : List (ℕ × ℚ)) (imp crew active : List ℕ) (voter : ℕ)
    (coin : ℚ) (ridx : ℕ)
    (hne : active.filter (fun p => decide (p ≠ voter)) ≠ [])
    (hcoin : ¬ coin < RANDOM_VOTE_RATE) (hnimp : voter ∉ imp) :
    voteOf ss imp crew active voter coin ridx =
      if (ss.getD 0 (0, 0)).1 ≠ voter then (ss.getD 0 (0, 0)).1
      else if 1 < ss.length then (ss.getD 1 (0, 0)).1
      else pickNat (active.filter (fun p => decide (p ≠ voter))) ridx := by
  simp only [voteOf]
  rw [if_neg hne, if_neg hcoin, if_neg hnimp]

/-- Reduction of `voteOf` for a non-random Impostor voter. -/
theorem voteOf_imp_eq (ss : List (ℕ × ℚ)) (imp crew active : List ℕ) (voter : ℕ)
    (coin : ℚ) (ridx : ℕ)
    (hne : active.filter (fun p => decide (p ≠ voter)) ≠ [])
    (hcoin : ¬ coin < RANDOM_VOTE_RATE) (himp : voter ∈ imp) :
    voteOf ss imp crew active voter coin ridx =
      match ss.filter (fun x => decide (x.1 ∈ crew ∧ x.1 ≠ voter)) with
      | c :: _ => c.1
      | [] =>
        if 1 < ss.length then (ss.getD 1 (0, 0)).1
        else pickNat (active.filter (fun p => decide (p ≠ voter))) ridx := by
  simp only [voteOf]
  rw [if_neg hne, if_neg hcoin, if_pos himp]

/-- The top-ranked entry of the descending sort carries a maximal score. -/
theorem sorted_head_max (scores : List (ℕ × ℚ)) :
    ∀ y ∈ sortDesc scores, y.2 ≤ ((sortDesc scores).getD 0 (0, 0)).2 := by
  have hpw := sortDesc_pairwise scores
  intro y hy
  cases hcase : sortDesc scores with
  | nil =>
    rw [hcase] at hy
    cases hy
  | cons h t =>
    rw [hcase] at hpw hy
    show y.2 ≤ h.2
    rcases List.mem_cons.mp hy with rfl | hy2
    · exact le_refl _
    · exact (List.pairwise_cons.mp hpw).1 y hy2

/-- When an active Crewmate exists, the Impostor scapegoat filter is
nonempty. -/
theorem crew_filter_ne_nil (ss : List (ℕ × ℚ)) (imp crew active : List ℕ) (voter : ℕ)
    (hkeysrev : ∀ p ∈ active, p ∈ ss.map Prod.fst)
    (himp : voter ∈ imp) (hdisj : ∀ p ∈ imp, p ∉ crew)
    (hex : ∃ p ∈ active, p ∈ crew) :
    ss.filter (fun x => decide (x.1 ∈ crew ∧ x.1 ≠ voter)) ≠ [] := by
  obtain ⟨p, hp, hpc⟩ := hex
  obtain ⟨y, hy, hy2⟩ := List.mem_map.mp (hkeysrev p hp)
  have hpv : p ≠ voter := by
    intro h
    exact hdisj voter himp (h ▸ hpc)
  refine List.ne_nil_of_mem (List.mem_filter.mpr ⟨hy, ?_⟩)
  simp only [hy2, decide_eq_true_eq]
  exact ⟨hpc, hpv⟩

/-- C5: for every active voter whose random-vote coin does not fire, a
Crewmate voter votes for the top-ranked id unless they hold the top rank
themselves, in which case they vote for the second-ranked id; an Impostor
voter votes for a highest-scoring active Crewmate whenever an active
Crewmate exists, and only in the absence of any active Crewmate votes for
the second-ranked id overall. -/
theorem claim_c5_vote_selection (scores : List (ℕ × ℚ)) (imp crew active : List ℕ)
    (voter : ℕ) (coin : ℚ) (ridx : ℕ)
    (hvoter : voter ∈ active) (hcoin : ¬ coin < RANDOM_VOTE_RATE)
    (hperm : (scores.map Prod.fst).Perm active)
    (hnd : active.Nodup) (hlena : 2 ≤ active.length)
    (hdisj : ∀ p ∈ imp, p ∉ crew) :
    (voter ∉ imp →
      (rankedId scores 0 ≠ voter →
        voteOf (sortDesc scores) imp crew active voter coin ridx = rankedId scores 0 ∧
        (∀ y ∈ sortDesc scores, y.2 ≤ ((sortDesc scores).getD 0 (0, 0)).2)) ∧
      (rankedId scores 0 = voter →
        voteOf (sortDesc scores) imp crew active voter coin ridx = rankedId scores 1)) ∧
    (voter ∈ imp →
      ((∃ p ∈ active, p ∈ crew) →
        voteOf (sortDesc scores) imp crew active voter coin ridx ∈ crew ∧
        voteOf (sortDesc scores) imp crew active voter coin ridx ∈ active ∧
        (∃ st, (voteOf (sortDesc scores) imp crew active voter coin ridx, st) ∈
            sortDesc scores ∧
          ∀ y ∈ sortDesc scores, y.1 ∈ crew → y.2 ≤ st)) ∧
      ((¬ ∃ p ∈ active, p ∈ crew) →
        voteOf (sortDesc scores) imp crew active voter coin ridx = rankedId scores 1)) := by
  have hkeysperm : ((sortDesc scores).map Prod.fst).Perm active :=
    ((sortDesc_perm scores).map Prod.fst).trans hperm
  have hkeys : ∀ p ∈ (sortDesc scores).map Prod.fst, p ∈ active :=
    fun p hp => hkeysperm.mem_iff.mp hp
  have hkeysrev : ∀ p ∈ active, p ∈ (sortDesc scores).map Prod.fst :=
    fun p hp => hkeysperm.mem_iff.mpr hp
  have hsslen : (sortDesc scores).length = active.length := by
    have h := hkeysperm.length_eq
    simpa using h
  have hlen2 : 1 < (sortDesc scores).length := by omega
  have hne : active.filter (fun p => decide (p ≠ voter)) ≠ [] := by
    obtain ⟨p, hp, hpne⟩ := exists_ne_of_two_le active voter hnd hlena
    refine List.ne_nil_of_mem (List.mem_filter.mpr ⟨hp, ?_⟩)
    simp [hpne]
  constructor
  · intro hnimp
    constructor
    · intro hhi
      unfold rankedId at hhi ⊢
      rw [voteOf_crew_eq _ _ _ _ _ _ _ hne hcoin hnimp, if_pos hhi]
      exact ⟨rfl, sorted_head_max scores⟩
    · intro hhi
      unfold rankedId at hhi ⊢
      rw [voteOf_crew_eq _ _ _ _ _ _ _ hne hcoin hnimp, if_neg (by simpa using hhi),
        if_pos hlen2]
  · intro himp
    constructor
    · intro hex
      rw [voteOf_imp_eq _ _ _ _ _ _ _ hne hcoin himp]
      have hfne := crew_filter_ne_nil (sortDesc scores) imp crew active voter hkeysrev
        himp hdisj hex
      cases hcs : (sortDesc scores).filter
          (fun x => decide (x.1 ∈ crew ∧ x.1 ≠ voter)) with
      | nil => exact absurd hcs hfne
      | cons c cr =>
        dsimp only
        have hcf : c ∈ (sortDesc scores).filter
            (fun x => decide (x.1 ∈ crew ∧ x.1 ≠ voter)) := by
          rw [hcs]
          exact List.mem_cons_self c cr
        have hcmem := List.mem_of_mem_filter hcf
        have hcpred := List.of_mem_filter hcf
        simp only [decide_eq_true_eq] at hcpred
        refine ⟨hcpred.1, hkeys _ (List.mem_map_of_mem Prod.fst hcmem), c.2, hcmem, ?_⟩
        have hfpw := (sortDesc_pairwise scores).filter
          (fun x => decide (x.1 ∈ crew ∧ x.1 ≠ voter))
        rw [hcs] at hfpw
        intro y hy hyc
        have hyv : y.1 ≠ voter := by
          intro h
          exact hdisj voter himp (h ▸ hyc)
        have hyf : y ∈ (sortDesc scores).filter
            (fun x => decide (x.1 ∈ crew ∧ x.1 ≠ voter)) := by
          refine List.mem_filter.mpr ⟨hy, ?_⟩
          simp only [decide_eq_true_eq]
          exact ⟨hyc, hyv⟩
        rw [hcs] at hyf
        rcases List.mem_cons.mp hyf with rfl | hyf2
        · exact le_refl _
        · exact (List.pairwise_cons.mp hfpw).1 y hyf2
    · intro hnex
      rw [voteOf_imp_eq _ _ _ _ _ _ _ hne hcoin himp]
      have hnil : (sortDesc scores).filter
          (fun x => decide (x.1 ∈ crew ∧ x.1 ≠ voter)) = [] := by
        rw [List.filter_eq_nil_iff]
        intro y hy hcontra
        have h2 := of_decide_eq_true hcontra
        exact hnex ⟨y.1, hkeys _ (List.mem_map_of_mem Prod.fst hy), h2.1⟩
      rw [hnil]
      dsimp only
      rw [if_pos hlen2]
      rfl

/-- C5 witness: the claim instantiated on uniform scores, Crewmate voter 3
and a non-firing coin. -/
theorem claim_c5_vote_selection_witness :
    ((3 : ℕ) ∈ ([1, 2, 3, 4, 5] : List ℕ)) ∧
    (¬ (1 : ℚ) < RANDOM_VOTE_RATE) ∧
    ((([(1, (1 : ℚ) / 2), (2, 1 / 2), (3, 1 / 2), (4, 1 / 2), (5, 1 / 2)] :
        List (ℕ × ℚ)).map Prod.fst).Perm [1, 2, 3, 4, 5]) ∧
    (([1, 2, 3, 4, 5] : List ℕ).Nodup) ∧
    (2 ≤ ([1, 2, 3, 4, 5] : List ℕ).length) ∧
    (∀ p ∈ ([1, 2] : List ℕ), p ∉ ([3, 4, 5] : List ℕ)) ∧
    ((3 ∉ ([1, 2] : List ℕ) →
      (rankedId [(1, (1 : ℚ) / 2), (2, 1 / 2), (3, 1 / 2), (4, 1 / 2), (5, 1 / 2)] 0 ≠ 3 →
        voteOf (sortDesc [(1, (1 : ℚ) / 2), (2, 1 / 2), (3, 1 / 2), (4, 1 / 2), (5, 1 / 2)])
            [1, 2] [3, 4, 5] [1, 2, 3, 4, 5] 3 1 0 =
          rankedId [(1, (1 : ℚ) / 2), (2, 1 / 2), (3, 1 / 2), (4, 1 / 2), (5, 1 / 2)] 0 ∧
        (∀ y ∈ sortDesc [(1, (1 : ℚ) / 2), (2, 1 / 2), (3, 1 / 2), (4, 1 / 2), (5, 1 / 2)],
          y.2 ≤ ((sortDesc [(1, (1 : ℚ) / 2), (2, 1 / 2), (3, 1 / 2), (4, 1 / 2),
            (5, 1 / 2)]).getD 0 (0, 0)).2)) ∧
      (rankedId [(1, (1 : ℚ) / 2), (2, 1 / 2), (3, 1 / 2), (4, 1 / 2), (5, 1 / 2)] 0 = 3 →
        voteOf (sortDesc [(1, (1 : ℚ) / 2), (2, 1 / 2), (3, 1 / 2), (4, 1 / 2), (5, 1 / 2)])
            [1, 2] [3, 4, 5] [1, 2, 3, 4, 5] 3 1 0 =
          rankedId [(1, (1 : ℚ) / 2), (2, 1 / 2), (3, 1 / 2), (4, 1 / 2), (5, 1 / 2)] 1)) ∧
    (3 ∈ ([1, 2] : List ℕ) →
      ((∃ p ∈ ([1, 2, 3, 4, 5] : List ℕ), p ∈ ([3, 4, 5] : List ℕ)) →
        voteOf (sortDesc [(1, (1 : ℚ) / 2), (2, 1 / 2), (3, 1 / 2), (4, 1 / 2), (5, 1 / 2)])
            [1, 2] [3, 4, 5] [1, 2, 3, 4, 5] 3 1 0 ∈ ([3, 4, 5] : List ℕ) ∧
        voteOf (sortDesc [(1, (1 : ℚ) / 2), (2, 1 / 2), (3, 1 / 2), (4, 1 / 2), (5, 1 / 2)])
            [1, 2] [3, 4, 5] [1, 2, 3, 4, 5] 3 1 0 ∈ ([1, 2, 3, 4, 5] : List ℕ) ∧
        (∃ st, (voteOf (sortDesc [(1, (1 : ℚ) / 2), (2, 1 / 2), (3, 1 / 2), (4, 1 / 2),
              (5, 1 / 2)]) [1, 2] [3, 4, 5] [1, 2, 3, 4, 5] 3 1 0, st) ∈
            sortDesc [(1, (1 : ℚ) / 2), (2, 1 / 2), (3, 1 / 2), (4, 1 / 2), (5, 1 / 2)] ∧
          ∀ y ∈ sortDesc [(1, (1 : ℚ) / 2), (2, 1 / 2), (3, 1 / 2), (4, 1 / 2), (5, 1 / 2)],
            y.1 ∈ ([3, 4, 5] : List ℕ) → y.2 ≤ st)) ∧
      ((¬ ∃ p ∈ ([1, 2, 3, 4, 5] : List ℕ), p ∈ ([3, 4, 5] : List ℕ)) →
        voteOf (sortDesc [(1, (1 : ℚ) / 2), (2, 1 / 2), (3, 1 / 2), (4, 1 / 2), (5, 1 / 2)])
            [1, 2] [3, 4, 5] [1, 2, 3, 4, 5] 3 1 0 =
          rankedId [(1, (1 : ℚ) / 2), (2, 1 / 2), (3, 1 / 2), (4, 1 / 2), (5, 1 / 2)] 1))) :=
  ⟨by decide, by norm_num [RANDOM_VOTE_RATE], by decide, by decide, by decide, by decide,
    claim_c5_vote_selection
      [(1, (1 : ℚ) / 2), (2, 1 / 2), (3, 1 / 2), (4, 1 / 2), (5, 1 / 2)]
      [1, 2] [3, 4, 5] [1, 2, 3, 4, 5] 3 1 0
      (by decide) (by norm_num [RANDOM_VOTE_RATE]) (by decide) (by decide) (by decide)
      (by decide)⟩

/-- In a nodup list, removing an eliminated set drops at most `card` many
elements. -/
theorem length_filter_notmem_ge (l : List ℕ) (elim : Finset ℕ) (hnd : l.Nodup) :
    l.length - elim.card ≤ (l.filter (fun p => decide (p ∉ elim))).length := by
  have hsplit := (List.filter_append_perm (fun p => decide (p ∉ elim)) l).length_eq
  rw [List.length_append] at hsplit
  have hg : (l.filter (fun p => !(decide (p ∉ elim)))).length ≤ elim.card := by
    have hgnd : (l.filter (fun p => !(decide (p ∉ elim)))).Nodup := hnd.filter _
    have hsub : (l.filter (fun p => !(decide (p ∉ elim)))).toFinset ⊆ elim := by
      intro x hx
      rw [List.mem_toFinset, List.mem_filter] at hx
      have hx2 := hx.2
      simp only [Bool.not_eq_true', decide_eq_false_iff_not, not_not] at hx2
      exact hx2
    calc (l.filter (fun p => !(decide (p ∉ elim)))).length
        = (l.filter (fun p => !(decide (p ∉ elim)))).toFinset.card :=
          (List.toFinset_card_of_nodup hgnd).symm
      _ ≤ elim.card := Finset.card_le_card hsub
  omega

/-- Distinct keys at ranks 0 and 1 of a ranking with distinct keys. -/
theorem keys_getD_ne (ss : List (ℕ × ℚ)) (hnd : (ss.map Prod.fst).Nodup)
    (hlen : 1 < ss.length) :
    (ss.getD 0 (0, 0)).1 ≠ (ss.getD 1 (0, 0)).1 := by
  match ss, hlen with
  | a :: b :: t, _ =>
    show a.1 ≠ b.1
    simp only [List.map_cons, List.nodup_cons] at hnd
    intro hcontra
    exact hnd.1 (by rw [hcontra]; exact List.mem_cons_self b.1 _)

/-- C10: in every voting phase reached with at most one prior elimination
(so at least two active Crewmates and four active players), no recorded
vote targets the voter themselves, the lone-player self-vote branch is
unreachable (every voter has another active player), the Impostor
no-active-Crewmate fallback branch is unreachable (the scapegoat filter is
never empty for an Impostor voter), and every non-random Impostor vote
targets an active Crewmate. -/
theorem claim_c10_no_self_votes (ids imp crew : List ℕ) (elim : Finset ℕ) (pr : PhaseRand)
    (hids : ids.Perm playerIds)
    (hcrewnd : crew.Nodup) (hcrewlen : crew.length = 3)
    (hcrewsub : ∀ p ∈ crew, p ∈ ids)
    (hdisj : ∀ p ∈ imp, p ∉ crew)
    (hcard : elim.card ≤ 1) :
    ∀ x ∈ phaseVotes ids imp crew elim pr,
      x.2 ≠ x.1 ∧
      (activeOf ids elim).filter (fun p => decide (p ≠ x.1)) ≠ [] ∧
      (x.1 ∈ imp →
        (phaseSorted ids imp elim pr).filter
          (fun y => decide (y.1 ∈ crew ∧ y.1 ≠ x.1)) ≠ [] ∧
        (¬ pr.voterCoin x.1 < RANDOM_VOTE_RATE →
          x.2 ∈ crew ∧ x.2 ∈ activeOf ids elim)) := by
  have hidnd : ids.Nodup := hids.nodup_iff.mpr (by decide)
  have hidlen : ids.length = 5 := by
    have h := hids.length_eq
    simpa [playerIds] using h
  have hand : (activeOf ids elim).Nodup := hidnd.filter _
  have halen : 4 ≤ (activeOf ids elim).length := by
    have h := length_filter_notmem_ge ids elim hidnd
    unfold activeOf
    omega
  have hkeysperm := phaseSorted_keys_perm ids imp elim pr
  have hkeys : ∀ p ∈ (phaseSorted ids imp elim pr).map Prod.fst, p ∈ activeOf ids elim :=
    fun p hp => hkeysperm.mem_iff.mp hp
  have hkeysrev : ∀ p ∈ activeOf ids elim, p ∈ (phaseSorted ids imp elim pr).map Prod.fst :=
    fun p hp => hkeysperm.mem_iff.mpr hp
  have hkeysnd : ((phaseSorted ids imp elim pr).map Prod.fst).Nodup :=
    hkeysperm.nodup_iff.mpr hand
  have hsslen : (phaseSorted ids imp elim pr).length = (activeOf ids elim).length := by
    have h := hkeysperm.length_eq
    simpa using h
  have hlen2 : 1 < (phaseSorted ids imp elim pr).length := by omega
  have hexcrew : ∃ p ∈ activeOf ids elim, p ∈ crew := by
    have h2 : crew.length - elim.card ≤ (crew.filter (fun p => decide (p ∉ elim))).length :=
      length_filter_notmem_ge crew elim hcrewnd
    have h3 : crew.filter (fun p => decide (p ∉ elim)) ≠ [] := by
      intro hnil
      rw [hnil] at h2
      simp only [List.length_nil] at h2
      omega
    obtain ⟨c, hcmem⟩ := List.exists_mem_of_ne_nil _ h3
    have hcf := List.mem_filter.mp hcmem
    refine ⟨c, ?_, hcf.1⟩
    exact List.mem_filter.mpr ⟨hcrewsub c hcf.1, hcf.2⟩
  intro x hx
  unfold phaseVotes at hx
  obtain ⟨v, hv, rfl⟩ := List.mem_map.mp hx
  dsimp only
  have hne : (activeOf ids elim).filter (fun p => decide (p ≠ v)) ≠ [] := by
    obtain ⟨p, hp, hpne⟩ := exists_ne_of_two_le _ v hand (by omega)
    refine List.ne_nil_of_mem (List.mem_filter.mpr ⟨hp, ?_⟩)
    simp [hpne]
  have himpcase : v ∈ imp →
      (phaseSorted ids imp elim pr).filter
        (fun y => decide (y.1 ∈ crew ∧ y.1 ≠ v)) ≠ [] :=
    fun himp => crew_filter_ne_nil _ imp crew _ v hkeysrev himp hdisj hexcrew
  by_cases hcoin : pr.voterCoin v < RANDOM_VOTE_RATE
  · have ht : voteOf (phaseSorted ids imp elim pr) imp crew (activeOf ids elim) v
        (pr.voterCoin v) (pr.voterIdx v) =
        pickNat ((activeOf ids elim).filter (fun p => decide (p ≠ v))) (pr.voterIdx v) := by
      simp only [voteOf]
      rw [if_neg hne, if_pos hcoin]
    have htmem := pickNat_mem _ (pr.voterIdx v) hne
    have htne : pickNat ((activeOf ids elim).filter (fun p => decide (p ≠ v)))
        (pr.voterIdx v) ≠ v := by
      have hpred := List.of_mem_filter htmem
      simpa using hpred
    rw [ht]
    exact ⟨htne, hne, fun himp => ⟨himpcase himp, fun hncoin => absurd hcoin hncoin⟩⟩
  · by_cases himp : v ∈ imp
    · rw [voteOf_imp_eq _ _ _ _ _ _ _ hne hcoin himp]
      cases hcs : (phaseSorted ids imp elim pr).filter
          (fun y => decide (y.1 ∈ crew ∧ y.1 ≠ v)) with
      | nil => exact absurd hcs (himpcase himp)
      | cons c cr =>
        dsimp only
        have hcf : c ∈ (phaseSorted ids imp elim pr).filter
            (fun y => decide (y.1 ∈ crew ∧ y.1 ≠ v)) := by
          rw [hcs]
          exact List.mem_cons_self c cr
        have hcpred := List.of_mem_filter hcf
        simp only [decide_eq_true_eq] at hcpred
        have hcact : c.1 ∈ activeOf ids elim :=
          hkeys _ (List.mem_map_of_mem Prod.fst (List.mem_of_mem_filter hcf))
        exact ⟨hcpred.2, hne, fun _ => ⟨List.cons_ne_nil c cr, fun _ => ⟨hcpred.1, hcact⟩⟩⟩
    · rw [voteOf_crew_eq _ _ _ _ _ _ _ hne hcoin himp]
      by_cases hhi : ((phaseSorted ids imp elim pr).getD 0 (0, 0)).1 ≠ v
      · rw [if_pos hhi]
        exact ⟨hhi, hne, fun hcontra => absurd hcontra himp⟩
      · rw [if_neg hhi, if_pos hlen2]
        push_neg at hhi
        have hne01 := keys_getD_ne (phaseSorted ids imp elim pr) hkeysnd hlen2
        refine ⟨?_, hne, fun hcontra => absurd hcontra himp⟩
        rw [← hhi]
        exact fun h => hne01 (h.symm)

/-- C10 witness: the initial-state phase with non-firing voter coins, at
the recorded vote of Impostor 1 for Crewmate 3. -/
theorem claim_c10_no_self_votes_witness :
    ([1, 2, 3, 4, 5] : List ℕ).Perm playerIds ∧
    ([3, 4, 5] : List ℕ).Nodup ∧
    ([3, 4, 5] : List ℕ).length = 3 ∧
    (∀ p ∈ ([3, 4, 5] : List ℕ), p ∈ ([1, 2, 3, 4, 5] : List ℕ)) ∧
    (∀ p ∈ ([1, 2] : List ℕ), p ∉ ([3, 4, 5] : List ℕ)) ∧
    (∅ : Finset ℕ).card ≤ 1 ∧
    ((1, 3) ∈ phaseVotes [1, 2, 3, 4, 5] [1, 2] [3, 4, 5] ∅ prOne) ∧
    ((3 : ℕ) ≠ 1 ∧
      (activeOf [1, 2, 3, 4, 5] (∅ : Finset ℕ)).filter (fun p => decide (p ≠ 1)) ≠ [] ∧
      ((1 : ℕ) ∈ ([1, 2] : List ℕ) →
        (phaseSorted [1, 2, 3, 4, 5] [1, 2] ∅ prOne).filter
          (fun y => decide (y.1 ∈ ([3, 4, 5] : List ℕ) ∧ y.1 ≠ 1)) ≠ [] ∧
        (¬ prOne.voterCoin 1 < RANDOM_VOTE_RATE →
          (3 : ℕ) ∈ ([3, 4, 5] : List ℕ) ∧
          (3 : ℕ) ∈ activeOf [1, 2, 3, 4, 5] (∅ : Finset ℕ)))) := by
  have hmem : ((1 : ℕ), (3 : ℕ)) ∈ phaseVotes [1, 2, 3, 4, 5] [1, 2] [3, 4, 5] ∅ prOne := by
    norm_num [phaseVotes, phaseSorted, activeOf, mockSuspectAnalysis, rawScore, fillScores,
      sortDesc, insertDesc, pickNat, voteOf, round2, round_eq, RANDOM_VOTE_RATE, prOne]
  exact ⟨by decide, by decide, by decide, by decide, by decide, by decide, hmem,
    claim_c10_no_self_votes [1, 2, 3, 4, 5] [1, 2] [3, 4, 5] ∅ prOne (by decide) (by decide)
      (by decide) (by decide) (by decide) (by decide) (1, 3) hmem⟩

/-- C9: with the narration collaborator held fixed, the full game outcome
is a function of the shared pseudorandom source alone: two runs over
pointwise-equal draw streams (in particular, two runs from one fixed seed)
produce identical role assignments, identical per-round votes and
eliminations, and an identical winner. -/
theorem claim_c9_deterministic_runs (s t : ℕ → ℚ) (h : ∀ n, s n = t n) :
    runGame s = runGame t := by
  have hst : s = t := funext h
  rw [hst]

/-- C9 witness: two runs over the constant-zero stream coincide. -/
theorem claim_c9_deterministic_runs_witness :
    (∀ n : ℕ, (fun _ : ℕ => (0 : ℚ)) n = (fun _ : ℕ => (0 : ℚ)) n) ∧
    runGame (fun _ => 0) = runGame (fun _ => 0) :=
  ⟨fun _ => rfl, claim_c9_deterministic_runs (fun _ => 0) (fun _ => 0) (fun _ => rfl)⟩

end SpaceWerewolf
